import Mathlib

/-!
Verification development for the BinAI trading core of the BaseAI repository.

The Python sources are shallowly embedded:
* `src/pandas_ta.py` (RSI / ATR / ADX indicator math, pure pandas) is embedded
  over `PFloat`, an IEEE-754-style value type (NaN, plus/minus infinity, or an
  exact rational), with the pandas semantics of `diff`, `shift`, `where`,
  `rolling(...).mean()`, `ewm(alpha, adjust=False).mean()` and `fillna`.
* `src/binai/trade_manager.py` (slot manager, position sizing, rebalancing)
  is embedded over exact rationals, with the exchange client's answers
  (balance fetch, precision rules, order API success) passed as explicit
  inputs, and `active_positions` as an association list keyed by symbol.
* `src/binai/strategy.py` (regime router and parameter cache) is embedded
  with the indicator computation's outcome and the two sub-strategies'
  answers passed as explicit inputs, and the persistence layer as a function
  from symbol to an optional parameter map.
-/

attribute [local semireducible] Rat.mul Rat.inv Rat.add Rat.sub Rat.ofScientific

/-- Python's `round(x, n)` on a rational: round `x * 10^n` to the nearest
integer with ties to even (banker's rounding), then divide back. -/
def roundHalfEven (x : ℚ) : ℤ :=
  let f : ℤ := Int.floor x
  let r : ℚ := x - f
  if r < 1/2 then f
  else if 1/2 < r then f + 1
  else if f % 2 = 0 then f else f + 1

/-- `round(x, n)` with a nonnegative number of decimal digits. -/
def roundQ (x : ℚ) (n : ℕ) : ℚ :=
  (roundHalfEven (x * 10 ^ n) : ℚ) / 10 ^ n

/-- An IEEE-754-style scalar as produced by numpy/pandas float arithmetic:
not-a-number, the two infinities, or a finite value (kept exact as a
rational). Signed zero is collapsed to `fin 0`. -/
inductive PFloat where
  | nan : PFloat
  | pinf : PFloat
  | ninf : PFloat
  | fin : ℚ → PFloat
deriving DecidableEq, Repr

namespace PFloat

def isNan : PFloat → Bool
  | nan => true
  | _ => false

def neg : PFloat → PFloat
  | nan => nan
  | pinf => ninf
  | ninf => pinf
  | fin q => fin (-q)

def add : PFloat → PFloat → PFloat
  | nan, _ => nan
  | _, nan => nan
  | pinf, ninf => nan
  | ninf, pinf => nan
  | pinf, _ => pinf
  | _, pinf => pinf
  | ninf, _ => ninf
  | _, ninf => ninf
  | fin a, fin b => fin (a + b)

def sub (a b : PFloat) : PFloat := a.add b.neg

def mul : PFloat → PFloat → PFloat
  | nan, _ => nan
  | _, nan => nan
  | pinf, pinf => pinf
  | pinf, ninf => ninf
  | ninf, pinf => ninf
  | ninf, ninf => pinf
  | pinf, fin b => if 0 < b then pinf else if b < 0 then ninf else nan
  | fin a, pinf => if 0 < a then pinf else if a < 0 then ninf else nan
  | ninf, fin b => if 0 < b then ninf else if b < 0 then pinf else nan
  | fin a, ninf => if 0 < a then ninf else if a < 0 then pinf else nan
  | fin a, fin b => fin (a * b)

def div : PFloat → PFloat → PFloat
  | nan, _ => nan
  | _, nan => nan
  | pinf, pinf => nan
  | pinf, ninf => nan
  | ninf, pinf => nan
  | ninf, ninf => nan
  | pinf, fin b => if 0 ≤ b then pinf else ninf
  | ninf, fin b => if 0 ≤ b then ninf else pinf
  | fin _, pinf => fin 0
  | fin _, ninf => fin 0
  | fin a, fin b =>
      if b = 0 then (if 0 < a then pinf else if a < 0 then ninf else nan)
      else fin (a / b)

def absP : PFloat → PFloat
  | nan => nan
  | pinf => pinf
  | ninf => pinf
  | fin q => fin |q|

/-- Strict less-than as numpy evaluates it: any comparison with NaN is false. -/
def blt : PFloat → PFloat → Bool
  | nan, _ => false
  | _, nan => false
  | pinf, _ => false
  | ninf, ninf => false
  | ninf, _ => true
  | fin _, pinf => true
  | fin _, ninf => false
  | fin a, fin b => decide (a < b)

/-- `fillna(q)`: replace NaN by the constant `q`. -/
def fillna (q : ℚ) : PFloat → PFloat
  | nan => fin q
  | x => x

end PFloat

/-! ### Pandas series primitives over lists of `PFloat` -/

/-- `series.diff()`: first entry NaN, then pairwise differences. -/
def diffP (l : List PFloat) : List PFloat :=
  List.zipWith PFloat.sub l (PFloat.nan :: l)

/-- `series.shift()`: first entry NaN, the rest shifted down by one. -/
def shiftP (l : List PFloat) : List PFloat :=
  (PFloat.nan :: l).take l.length

/-- Sum of a window, defined only when every entry is finite. -/
def finSum : List PFloat → Option ℚ
  | [] => some 0
  | PFloat.fin q :: t => (finSum t).map (fun s => q + s)
  | _ :: _ => none

/-- `series.rolling(window=n).mean()` with pandas defaults
(`min_periods = n`; any NaN inside the window poisons the result). -/
def rollingMean (n : ℕ) (l : List PFloat) : List PFloat :=
  (List.range l.length).map (fun i =>
    if n = 0 ∨ i + 1 < n then PFloat.nan
    else
      match finSum ((l.take (i + 1)).drop (i + 1 - n)) with
      | some s => PFloat.fin (s / n)
      | none => PFloat.nan)

/-- One step of pandas `ewm(alpha=a, adjust=False, ignore_na=False).mean()`:
the state is the current weighted average together with the decayed weight
of the old average.  A NaN input carries the average forward and decays the
weight; a valid input after NaN history restarts the average. -/
def ewmStep (a : ℚ) (acc : PFloat × ℚ) (x : PFloat) : PFloat × ℚ :=
  match acc.1.isNan, x.isNan with
  | false, false =>
      let w := acc.2 * (1 - a)
      (PFloat.div (PFloat.add (PFloat.mul (PFloat.fin w) acc.1)
        (PFloat.mul (PFloat.fin a) x)) (PFloat.fin (w + a)), 1)
  | false, true => (acc.1, acc.2 * (1 - a))
  | true, false => (x, 1)
  | true, true => (acc.1, acc.2)

/-- `series.ewm(alpha=a, adjust=False).mean()`. -/
def ewm (a : ℚ) (l : List PFloat) : List PFloat :=
  ((l.scanl (ewmStep a) (PFloat.nan, 1)).tail).map Prod.fst

/-- Row-wise `ranges.max(axis=1)`: maximum of the entries, NaN skipped;
NaN only when every entry is NaN. -/
def maxSkipNan (l : List PFloat) : PFloat :=
  l.foldl (fun acc x =>
    match acc, x with
    | PFloat.nan, _ => x
    | _, PFloat.nan => acc
    | a, b => if PFloat.blt a b then b else a) PFloat.nan

def finL (l : List ℚ) : List PFloat := l.map PFloat.fin

/-! ### `src/pandas_ta.py` — RSI -/

/-- `(delta.where(delta > 0, 0)).rolling(window=length).mean()` from
`pandas_ta.rsi`.  `where` replaces entries failing the condition (including
the leading NaN of `diff`) by `0`. -/
def avgGain (closes : List ℚ) (length : ℕ) : List PFloat :=
  rollingMean length
    ((diffP (finL closes)).map (fun d =>
      if PFloat.blt (PFloat.fin 0) d then d else PFloat.fin 0))

/-- `(-delta.where(delta < 0, 0)).rolling(window=length).mean()` from
`pandas_ta.rsi`. -/
def avgLoss (closes : List ℚ) (length : ℕ) : List PFloat :=
  rollingMean length
    ((diffP (finL closes)).map (fun d =>
      PFloat.neg (if PFloat.blt d (PFloat.fin 0) then d else PFloat.fin 0)))

/-- `pandas_ta.rsi`: `rs = gain / loss; res = 100 - (100 / (1 + rs));
return res.fillna(50)`. -/
def rsi (closes : List ℚ) (length : ℕ) : List PFloat :=
  (List.zipWith PFloat.div (avgGain closes length) (avgLoss closes length)).map
    (fun rs =>
      PFloat.fillna 50
        (PFloat.sub (PFloat.fin 100)
          (PFloat.div (PFloat.fin 100) (PFloat.add (PFloat.fin 1) rs))))

/-! ### `src/pandas_ta.py` — ATR and ADX -/

/-- `pandas_ta.atr`'s true range: row-wise maximum (NaN-skipping) of
`high - low`, `abs(high - close.shift())`, `abs(low - close.shift())`. -/
def trueRange (high low close : List ℚ) : List PFloat :=
  let h := finL high
  let l := finL low
  let cs := shiftP (finL close)
  let hl := List.zipWith PFloat.sub h l
  let hc := (List.zipWith PFloat.sub h cs).map PFloat.absP
  let lc := (List.zipWith PFloat.sub l cs).map PFloat.absP
  List.zipWith (fun p z => maxSkipNan [p.1, p.2, z]) (hl.zip hc) lc

/-- `pandas_ta.atr`: Wilder smoothing of the true range,
`true_range.ewm(alpha=1/length, adjust=False).mean()`. -/
def atr (high low close : List ℚ) (length : ℕ) : List PFloat :=
  ewm (1 / (length : ℚ)) (trueRange high low close)

/-- `np.where((up > down) & (up > 0), up, 0.0)` from `pandas_ta.adx`, where
`up = high.diff()` and `down = -low.diff()`; NaN comparisons are false. -/
def dmPlus (high low : List ℚ) : List PFloat :=
  let up := diffP (finL high)
  let down := (diffP (finL low)).map PFloat.neg
  List.zipWith (fun u d =>
    if PFloat.blt d u && PFloat.blt (PFloat.fin 0) u then u else PFloat.fin 0)
    up down

/-- `np.where((down > up) & (down > 0), down, 0.0)` from `pandas_ta.adx`. -/
def dmMinus (high low : List ℚ) : List PFloat :=
  let up := diffP (finL high)
  let down := (diffP (finL low)).map PFloat.neg
  List.zipWith (fun u d =>
    if PFloat.blt u d && PFloat.blt (PFloat.fin 0) d then d else PFloat.fin 0)
    up down

/-- `plus_di = 100 * (plus_dm_s / _atr)` from `pandas_ta.adx`, with
`plus_dm_s` the Wilder smoothing of `dmPlus`. -/
def diPlus (high low close : List ℚ) (length : ℕ) : List PFloat :=
  List.zipWith (fun d a => PFloat.mul (PFloat.fin 100) (PFloat.div d a))
    (ewm (1 / (length : ℚ)) (dmPlus high low)) (atr high low close length)

/-- `minus_di = 100 * (minus_dm_s / _atr)` from `pandas_ta.adx`. -/
def diMinus (high low close : List ℚ) (length : ℕ) : List PFloat :=
  List.zipWith (fun d a => PFloat.mul (PFloat.fin 100) (PFloat.div d a))
    (ewm (1 / (length : ℚ)) (dmMinus high low)) (atr high low close length)

/-- `dx = 100 * np.abs((plus_di - minus_di) / (plus_di + minus_di))` from
`pandas_ta.adx` — note the denominator is not guarded against zero. -/
def dxLine (high low close : List ℚ) (length : ℕ) : List PFloat :=
  List.zipWith (fun p m =>
    PFloat.mul (PFloat.fin 100)
      (PFloat.absP (PFloat.div (PFloat.sub p m) (PFloat.add p m))))
    (diPlus high low close length) (diMinus high low close length)

/-- `adx_val = dx.ewm(alpha=1/length, adjust=False).mean()`, the `ADX_n`
column of `pandas_ta.adx`. -/
def adxLine (high low close : List ℚ) (length : ℕ) : List PFloat :=
  ewm (1 / (length : ℚ)) (dxLine high low close length)

/-! ### `src/binai/trade_manager.py` — state, sizing and slot management

Symbols are drawn from an arbitrary type with decidable equality (the Python
code uses strings); `active_positions` is an insertion-ordered association
list, matching Python dict semantics. -/

/-- A trade direction as passed around by `strategy.py` / `trade_manager.py`
(`"LONG"` / `"SHORT"` / `"NEUTRAL"`). -/
inductive TradeSignal where
  | LONG : TradeSignal
  | SHORT : TradeSignal
  | NEUTRAL : TradeSignal
deriving DecidableEq, Repr

/-- One `active_positions` entry: `{"side", "quantity", "entry_price",
"unRealizedProfit"}` (the timestamp field plays no role in the claims). -/
structure OpenPosition where
  side : TradeSignal
  quantity : ℚ
  entryPrice : ℚ
  unRealizedProfit : ℚ
deriving DecidableEq, Repr

/-- Association-list lookup keyed by decidable equality. -/
def alookup {Sym α : Type} [DecidableEq Sym] : List (Sym × α) → Sym → Option α
  | [], _ => none
  | (k, v) :: t, s => if k = s then some v else alookup t s

/-- Python `dict` insertion: overwrite in place if the key is present,
otherwise append at the end. -/
def dinsert {Sym α : Type} [DecidableEq Sym]
    (l : List (Sym × α)) (s : Sym) (v : α) : List (Sym × α) :=
  if s ∈ l.map Prod.fst then
    l.map (fun kv => if kv.1 = s then (s, v) else kv)
  else l ++ [(s, v)]

/-- Python `del d[s]` (total: removes every pairing of the key). -/
def dremove {Sym α : Type} [DecidableEq Sym]
    (l : List (Sym × α)) (s : Sym) : List (Sym × α) :=
  l.filter (fun kv => kv.1 ≠ s)

/-- The per-symbol precision rules from `exchange_rules`
(`quantityPrecision`, `pricePrecision`). -/
structure ExchangeRules where
  quantityPrecision : ℕ
  pricePrecision : ℕ
deriving DecidableEq, Repr

/-- The `config.py` constants consumed by `trade_manager.py`. -/
structure RiskConfig where
  useDynamicSltp : Bool
  atrStopLossMultiplier : ℚ
  atrTakeProfitMultiplier : ℚ
  stopLossPercent : ℚ
  takeProfitPercent : ℚ
  useDynamicPositionSizing : Bool
  riskPerTradePercent : ℚ
  positionSizePercent : ℚ
  leverage : ℚ
  maxConcurrentPositions : ℕ
  opportunisticRebalanceEnabled : Bool
  opportunisticRebalanceThreshold : ℚ
deriving DecidableEq, Repr

/-- How a call to `_open_position_logic` ended.  The first six constructors
are the early `return False` paths (in source order); `apiError` is the
caught `BinanceAPIException`/`Exception` during step 5; `opened` carries the
rounded quantity and protective prices of the successful path. -/
inductive OpenOutcome where
  | balanceFetchFailed : OpenOutcome
  | insufficientBalance : OpenOutcome
  | missingRules : OpenOutcome
  | zeroSlDistance : OpenOutcome
  | zeroDivisionRaised : OpenOutcome
  | zeroQuantity : OpenOutcome
  | apiError : OpenOutcome
  | opened : ℚ → ℚ → ℚ → OpenOutcome
deriving DecidableEq, Repr

/-- Result of `_open_position_logic`: outcome, the `active_positions` map
after the call, and whether any exchange order was attempted (step 5 was
reached). -/
structure OpenResult (Sym : Type) where
  outcome : OpenOutcome
  positions : List (Sym × OpenPosition)
  ordersAttempted : Bool

/-- Step 3 of `_open_position_logic`: `sl_distance_per_unit`, dynamic
(`ATR × multiplier`) when `USE_DYNAMIC_SLTP and last_atr > 0`, else static
(`price × STOP_LOSS_PERCENT`). -/
def slDistancePerUnit (cfg : RiskConfig) (currentPrice lastAtr : ℚ) : ℚ :=
  if cfg.useDynamicSltp ∧ 0 < lastAtr then lastAtr * cfg.atrStopLossMultiplier
  else currentPrice * cfg.stopLossPercent

/-- Step 3 of `_open_position_logic`: `tp_distance_per_unit`. -/
def tpDistancePerUnit (cfg : RiskConfig) (currentPrice lastAtr : ℚ) : ℚ :=
  if cfg.useDynamicSltp ∧ 0 < lastAtr then lastAtr * cfg.atrTakeProfitMultiplier
  else currentPrice * cfg.takeProfitPercent

/-- `_open_position_logic` (trade_manager.py).  External effects are inputs:
`balanceFetch` is the fetched USDT balance (`none` when the balance call
raised), `rules?` is `exchange_rules.get(symbol)`, and `apiOk` says whether
the step-5 exchange calls succeed.  `zeroDivisionRaised` marks the one
unguarded division of the static-sizing branch (`quantity = notional /
current_price` with a zero price), which in Python propagates out as an
uncaught `ZeroDivisionError`. -/
def openPositionLogic {Sym : Type} [DecidableEq Sym] (cfg : RiskConfig)
    (balanceFetch : Option ℚ) (rules? : Option ExchangeRules)
    (symbol : Sym) (signal : TradeSignal) (currentPrice lastAtr : ℚ)
    (apiOk : Bool) (positions : List (Sym × OpenPosition)) : OpenResult Sym :=
  match balanceFetch with
  | none => ⟨.balanceFetchFailed, positions, false⟩
  | some usdtBalance =>
    if usdtBalance ≤ 10 then ⟨.insufficientBalance, positions, false⟩
    else
      match rules? with
      | none => ⟨.missingRules, positions, false⟩
      | some rules =>
        let slDist := slDistancePerUnit cfg currentPrice lastAtr
        let tpDist := tpDistancePerUnit cfg currentPrice lastAtr
        if slDist = 0 then ⟨.zeroSlDistance, positions, false⟩
        else if ¬cfg.useDynamicPositionSizing ∧ currentPrice = 0 then
          ⟨.zeroDivisionRaised, positions, false⟩
        else
          let quantity :=
            roundQ
              (if cfg.useDynamicPositionSizing then
                usdtBalance * cfg.riskPerTradePercent / slDist
              else
                usdtBalance * cfg.positionSizePercent * cfg.leverage /
                  currentPrice)
              rules.quantityPrecision
          if quantity = 0 then ⟨.zeroQuantity, positions, false⟩
          else if apiOk then
            let slPrice :=
              roundQ
                (if signal = .LONG then currentPrice - slDist
                 else currentPrice + slDist) rules.pricePrecision
            let tpPrice :=
              roundQ
                (if signal = .LONG then currentPrice + tpDist
                 else currentPrice - tpDist) rules.pricePrecision
            ⟨.opened quantity slPrice tpPrice,
              dinsert positions symbol
                ⟨(if signal = .LONG then .LONG else .SHORT), quantity,
                  currentPrice, 0⟩,
              true⟩
          else ⟨.apiError, positions, true⟩

/-- The loop body of `_get_weakest_open_position`: update the running
`(weakest_symbol, weakest_pnl)` whenever `pnl <= weakest_pnl`. -/
def weakestStep {Sym : Type} (acc : Option Sym × ℚ) (kv : Sym × OpenPosition) :
    Option Sym × ℚ :=
  if kv.2.unRealizedProfit ≤ acc.2 then (some kv.1, kv.2.unRealizedProfit)
  else acc

/-- `_get_weakest_open_position` (trade_manager.py): scan the in-memory map,
starting from the first entry's `unRealizedProfit` with `weakest_symbol =
None`, updating on `pnl <= weakest_pnl`; returns `none` exactly when the map
is empty. -/
def getWeakestOpenPosition {Sym : Type} :
    List (Sym × OpenPosition) → Option (Sym × ℚ)
  | [] => none
  | (k0, p0) :: t =>
    let r := ((k0, p0) :: t).foldl weakestStep
      ((none : Option Sym), p0.unRealizedProfit)
    match r.1 with
    | some s => some (s, r.2)
    | none => none

/-- `manage_risk_and_open_position` (trade_manager.py): skip when the symbol
is already held (KONTROL 1) or the correlation guard blocks (KONTROL 2);
open directly when a slot is free (KONTROL 3); otherwise, with rebalancing
enabled and `confidence >= OPPORTUNISTIC_REBALANCE_THRESHOLD`, close the
weakest position (`_close_position_by_symbol` always deletes it from the
map, in its `finally` block) and open the candidate; else drop the signal.
Only the resulting `active_positions` map is returned (the source function
returns `None`). -/
def manageRiskAndOpenPosition {Sym : Type} [DecidableEq Sym] (cfg : RiskConfig)
    (balanceFetch : Option ℚ) (rules? : Option ExchangeRules)
    (symbol : Sym) (signal : TradeSignal) (confidence currentPrice lastAtr : ℚ)
    (corrBlocked apiOk : Bool) (positions : List (Sym × OpenPosition)) :
    List (Sym × OpenPosition) :=
  if symbol ∈ positions.map Prod.fst then positions
  else if corrBlocked then positions
  else if positions.length < cfg.maxConcurrentPositions then
    (openPositionLogic cfg balanceFetch rules? symbol signal currentPrice
      lastAtr apiOk positions).positions
  else if cfg.opportunisticRebalanceEnabled then
    if cfg.opportunisticRebalanceThreshold ≤ confidence then
      match getWeakestOpenPosition positions with
      | some (weakestSymbol, _) =>
        (openPositionLogic cfg balanceFetch rules? symbol signal currentPrice
          lastAtr apiOk (dremove positions weakestSymbol)).positions
      | none => positions
    else positions
  else positions

/-- One operation against the shared `active_positions` map: either a signal
processed through `manage_risk_and_open_position` (with the exchange's
answers bundled in), or the removal performed when `check_and_update_positions`
detects that the exchange reports the position closed. -/
inductive TradeOp (Sym : Type) where
  | signal (symbol : Sym) (sig : TradeSignal)
      (confidence currentPrice lastAtr : ℚ) (balanceFetch : Option ℚ)
      (rules? : Option ExchangeRules) (corrBlocked apiOk : Bool) : TradeOp Sym
  | closed (symbol : Sym) : TradeOp Sym

def applyTradeOp {Sym : Type} [DecidableEq Sym] (cfg : RiskConfig)
    (positions : List (Sym × OpenPosition)) : TradeOp Sym →
    List (Sym × OpenPosition)
  | .signal symbol sig confidence currentPrice lastAtr balanceFetch rules?
      corrBlocked apiOk =>
    manageRiskAndOpenPosition cfg balanceFetch rules? symbol sig confidence
      currentPrice lastAtr corrBlocked apiOk positions
  | .closed symbol => dremove positions symbol

def applyTradeOps {Sym : Type} [DecidableEq Sym] (cfg : RiskConfig)
    (positions : List (Sym × OpenPosition)) (ops : List (TradeOp Sym)) :
    List (Sym × OpenPosition) :=
  ops.foldl (applyTradeOp cfg) positions

/-! ### `src/binai/strategy.py` — regime router -/

/-- The lookback/threshold parameters `analyze_symbol` reads from `params`
or `config` (`ADX_PERIOD`, `SLOW_MA_PERIOD`, `MIN_KLINES_FOR_STRATEGY`,
`ADX_TREND_THRESHOLD`). -/
structure RouterParams where
  adxPeriod : ℕ
  slowMaPeriod : ℕ
  minKlinesForStrategy : ℕ
  adxTrendThreshold : ℚ
deriving DecidableEq, Repr

/-- Outcome of the `ta.adx` / `ta.atr` computation inside `analyze_symbol`:
`ok` when `adx_result` is non-None, carries the `ADX_n` column and
`atr_result` is non-None (with the last values of each); `noResult` when
that condition fails (the `else` branch); `raised` when the computation
throws (the `except` branch). -/
inductive IndicatorOutcome where
  | ok : ℚ → ℚ → IndicatorOutcome
  | noResult : IndicatorOutcome
  | raised : IndicatorOutcome
deriving DecidableEq, Repr

inductive StrategyKind where
  | trending : StrategyKind
  | ranging : StrategyKind
deriving DecidableEq, Repr

/-- The value of `analyze_symbol`: the returned 4-tuple `(signal,
confidence, current_price, last_atr)`, plus which sub-strategy module was
consulted (`none` on the early returns). -/
structure AnalyzeOutput where
  signal : TradeSignal
  confidence : ℚ
  currentPrice : ℚ
  lastAtr : ℚ
  consulted : Option StrategyKind
deriving DecidableEq, Repr

/-- `analyze_symbol` (strategy.py), with the candle list abstracted to its
length, the last close passed as `currentPrice`, the indicator computation's
outcome as `ind`, and the two sub-strategies' `(signal, confidence)` answers
as oracles.  The market regime defaults to `"TREND"` and `last_atr` to `0.0`;
the `except` branch returns `("NEUTRAL", 0.0, current_price, 0.0)` without
consulting any strategy. -/
def analyzeSymbol (p : RouterParams) (klinesLen : ℕ) (currentPrice : ℚ)
    (ind : IndicatorOutcome) (trending ranging : TradeSignal × ℚ) :
    AnalyzeOutput :=
  let requiredDataLength :=
    max p.adxPeriod (max p.slowMaPeriod p.minKlinesForStrategy)
  if klinesLen < requiredDataLength then ⟨.NEUTRAL, 0, 0, 0, none⟩
  else
    match ind with
    | .raised => ⟨.NEUTRAL, 0, currentPrice, 0, none⟩
    | .noResult =>
      ⟨trending.1, trending.2, currentPrice, 0, some .trending⟩
    | .ok lastAdx lastAtr =>
      if p.adxTrendThreshold < lastAdx then
        ⟨trending.1, trending.2, currentPrice, lastAtr, some .trending⟩
      else
        ⟨ranging.1, ranging.2, currentPrice, lastAtr, some .ranging⟩

/-! ### `src/binai/strategy.py` — parameter cache (`_get_cached_params`) -/

/-- A parameter mapping as stored in `strategy_params.db` (the payload is
irrelevant to the caching claims; the empty list is Python's falsy `{}`). -/
abbrev ParamMap (Key : Type) : Type := List (Key × ℚ)

/-- `_params_cache`: symbol to `(params, timestamp)`. -/
abbrev ParamsCache (Sym Key : Type) : Type := List (Sym × (ParamMap Key × ℚ))

def paramsCacheTtlSeconds : ℚ := 300

/-- `_get_cached_params` (strategy.py): return the cached entry when younger
than the TTL; otherwise read `db_manager.get_strategy_params(symbol)` (the
`db` oracle; `none` models Python's `None`).  A truthy result (`if
params_from_db:` — non-`None` and non-empty) is cached with the current
time; a falsy one yields the empty map WITHOUT caching.  The third
component reports whether the persistence layer was hit. -/
def getCachedParams {Sym Key : Type} [DecidableEq Sym]
    (db : Sym → Option (ParamMap Key)) (currentTime : ℚ) (symbol : Sym)
    (cache : ParamsCache Sym Key) :
    ParamMap Key × ParamsCache Sym Key × Bool :=
  let fetch : ParamMap Key × ParamsCache Sym Key × Bool :=
    match db symbol with
    | some paramsFromDb =>
      if paramsFromDb.isEmpty then ([], cache, true)
      else
        (paramsFromDb, dinsert cache symbol (paramsFromDb, currentTime), true)
    | none => ([], cache, true)
  match alookup cache symbol with
  | some (params, timestamp) =>
    if currentTime - timestamp < paramsCacheTtlSeconds then
      (params, cache, false)
    else fetch
  | none => fetch

/-- The timestamps of the calls in `calls` (each a `(current_time, symbol)`
pair, in call order) at which `_get_cached_params` hit the persistence
layer on behalf of a given symbol. -/
def fetchTimesFor {Sym Key : Type} [DecidableEq Sym]
    (db : Sym → Option (ParamMap Key)) (s : Sym) :
    ParamsCache Sym Key → List (ℚ × Sym) → List ℚ
  | _, [] => []
  | cache, (t, sym) :: rest =>
    let r := getCachedParams db t sym cache
    (if r.2.2 = true ∧ sym = s then [t] else []) ++
      fetchTimesFor db s r.2.1 rest

/-! ### The Ranging strategy's Bollinger-reversal variant (spec §4.3) -/

/-- The per-bar data the Bollinger-reversal Ranging strategy inspects:
previous bar's low/high, current close, the Bollinger bands (rolling mean
± k·stddev, per `pandas_ta.bbands`) at the previous and current bar, and
the current RSI.  Band values are taken as inputs because the rolling
standard deviation is an irrational square root. -/
structure RangingBarData where
  prevLow : ℚ
  prevHigh : ℚ
  close : ℚ
  prevLowerBand : ℚ
  prevUpperBand : ℚ
  lowerBand : ℚ
  upperBand : ℚ
  rsiValue : ℚ
deriving DecidableEq, Repr

structure RangingBBParams where
  rsiOversold : ℚ
  rsiOverbought : ℚ
  minSignalConfidence : ℚ
deriving DecidableEq, Repr

/-- The Bollinger LONG entry condition of spec §4.3: previous bar's low
touched-or-breached the lower band, and the current close has moved back
above the lower band. -/
def bbLongCondition (d : RangingBarData) : Prop :=
  d.prevLow ≤ d.prevLowerBand ∧ d.lowerBand < d.close

/-- Mirror condition against the upper band. -/
def bbShortCondition (d : RangingBarData) : Prop :=
  d.prevUpperBand ≤ d.prevHigh ∧ d.close < d.upperBand

instance (d : RangingBarData) : Decidable (bbLongCondition d) :=
  inferInstanceAs (Decidable (_ ∧ _))

instance (d : RangingBarData) : Decidable (bbShortCondition d) :=
  inferInstanceAs (Decidable (_ ∧ _))

/-- Modelled from the spec: the Bollinger-reversal variant of the Ranging
strategy (spec §4.3, §8) is code of this repository that is missing from
`src/` — `src/binai/strategy_ranging.py` contains the RSI-crossing variant,
and only the variant's indicator dependency (`bbands` in `src/pandas_ta.py`,
"added for v22.0") ships here.  Per the spec: LONG when the previous bar's
low touched-or-breached the lower band and the current close has moved back
above it; SHORT is the mirror against the upper band; base confidence 0.70
on the band-touch-and-reclaim, plus up to 0.30 more from the RSI
confirmation (RSI beyond the oversold/overbought threshold) and the
reversal-bar confirmation (close beyond the previous bar's high/low);
filtered to NEUTRAL below `min_signal_confidence`. -/
def rangingBollingerAnalyze (d : RangingBarData) (p : RangingBBParams) :
    TradeSignal × ℚ :=
  if bbLongCondition d then
    let confidence := (7 : ℚ)/10 +
      (if d.rsiValue < p.rsiOversold then (3 : ℚ)/20 else 0) +
      (if d.prevHigh < d.close then (3 : ℚ)/20 else 0)
    if confidence < p.minSignalConfidence then (.NEUTRAL, confidence)
    else (.LONG, confidence)
  else if bbShortCondition d then
    let confidence := (7 : ℚ)/10 +
      (if p.rsiOverbought < d.rsiValue then (3 : ℚ)/20 else 0) +
      (if d.close < d.prevLow then (3 : ℚ)/20 else 0)
    if confidence < p.minSignalConfidence then (.NEUTRAL, confidence)
    else (.SHORT, confidence)
  else (.NEUTRAL, 0)

/-- The concrete constants of `src/binai/config.py` (v21.2) used by
`trade_manager.py`; exact rationals for the decimal literals. -/
def configPy : RiskConfig where
  useDynamicSltp := true
  atrStopLossMultiplier := 2
  atrTakeProfitMultiplier := 4
  stopLossPercent := 3/200
  takeProfitPercent := 3/100
  useDynamicPositionSizing := true
  riskPerTradePercent := 1/50
  positionSizePercent := 1/2
  leverage := 10
  maxConcurrentPositions := 2
  opportunisticRebalanceEnabled := true
  opportunisticRebalanceThreshold := 19/20

/-- The concrete router parameters of `src/binai/config.py`:
`ADX_PERIOD = 14`, `SLOW_MA_PERIOD = 50`, `MIN_KLINES_FOR_STRATEGY = 200`,
`ADX_TREND_THRESHOLD = 25`. -/
def routerParamsPy : RouterParams where
  adxPeriod := 14
  slowMaPeriod := 50
  minKlinesForStrategy := 200
  adxTrendThreshold := 25

/-- A concrete full position map (two slots, as in `config.py`): symbol `1`
with unrealized PnL `5`, symbol `2` with unrealized PnL `-3`. -/
def twoPositions : List (ℕ × OpenPosition) :=
  [(1, ⟨.LONG, 1, 100, 5⟩), (2, ⟨.SHORT, 2, 200, -3⟩)]

/-! ## Theorems -/

/-- Claim C10: whenever the fetched USDT balance is at most 10,
`_open_position_logic` fails before computing any stop-loss distance or
quantity — for every signal direction, price, ATR, precision-rule set and
API behaviour, no order is attempted and `active_positions` is unchanged. -/
theorem c10_low_balance_aborts {Sym : Type} [DecidableEq Sym]
    (cfg : RiskConfig) (rules? : Option ExchangeRules) (symbol : Sym)
    (signal : TradeSignal) (currentPrice lastAtr : ℚ) (apiOk : Bool)
    (positions : List (Sym × OpenPosition)) (B : ℚ) (hB : B ≤ 10) :
    openPositionLogic cfg (some B) rules? symbol signal currentPrice lastAtr
      apiOk positions = ⟨.insufficientBalance, positions, false⟩ := by
  simp [openPositionLogic, hB]

theorem c10_low_balance_aborts_witness :
    (5 : ℚ) ≤ 10 ∧
      openPositionLogic configPy (some 5) (some ⟨1, 2⟩) (0 : ℕ) .LONG 100 50
        true [] = ⟨.insufficientBalance, [], false⟩ :=
  ⟨by norm_num,
    c10_low_balance_aborts configPy (some ⟨1, 2⟩) 0 .LONG 100 50 true [] 5
      (by norm_num)⟩

/-- Claim C4: when the candle list is shorter than the longest required
lookback — the maximum of the ADX period, the slow-MA period and
`MIN_KLINES_FOR_STRATEGY` — `analyze_symbol` returns `("NEUTRAL", 0.0, 0.0,
0.0)` without consulting any strategy, for every indicator outcome and
sub-strategy answer (the embedding is a total function, so no exception is
raised on this path). -/
theorem c4_insufficient_candles_neutral (p : RouterParams) (klinesLen : ℕ)
    (currentPrice : ℚ) (ind : IndicatorOutcome)
    (trending ranging : TradeSignal × ℚ)
    (h : klinesLen <
      max p.adxPeriod (max p.slowMaPeriod p.minKlinesForStrategy)) :
    analyzeSymbol p klinesLen currentPrice ind trending ranging =
      ⟨.NEUTRAL, 0, 0, 0, none⟩ := by
  simp [analyzeSymbol, h]

theorem c4_insufficient_candles_neutral_witness :
    (199 < max routerParamsPy.adxPeriod
      (max routerParamsPy.slowMaPeriod routerParamsPy.minKlinesForStrategy)) ∧
      analyzeSymbol routerParamsPy 199 42 (.ok 30 7) (.LONG, 1) (.SHORT, 1) =
        ⟨.NEUTRAL, 0, 0, 0, none⟩ :=
  ⟨by decide,
    c4_insufficient_candles_neutral routerParamsPy 199 42 (.ok 30 7)
      (.LONG, 1) (.SHORT, 1) (by decide)⟩

/-- Counterexample to claim C5: on the exception path of the indicator
computation (one of the two failure modes of lines 147–173 of
`strategy.py`), `analyze_symbol` returns NEUTRAL with confidence 0 and
consults no strategy module — the market is not classified as TREND and the
Trending strategy is not the one consulted. -/
theorem c5_counterexample :
    (analyzeSymbol routerParamsPy 200 5 .raised (.LONG, 1) (.SHORT, 1)).signal
        = .NEUTRAL ∧
      (analyzeSymbol routerParamsPy 200 5 .raised (.LONG, 1)
          (.SHORT, 1)).consulted = none ∧
      ¬ (analyzeSymbol routerParamsPy 200 5 .raised (.LONG, 1)
          (.SHORT, 1)).consulted = some .trending := by
  decide

/-- Claim C5 as amended: of the two indicator-failure modes of
`analyze_symbol`, only the no-usable-result mode (`ta.adx`/`ta.atr`
returning nothing usable) falls back to the TREND regime and consults the
Trending strategy; the exception mode returns `("NEUTRAL", 0.0,
current_price, 0.0)` without consulting any strategy. -/
theorem c5_indicator_failure_paths (p : RouterParams) (klinesLen : ℕ)
    (currentPrice : ℚ) (trending ranging : TradeSignal × ℚ)
    (h : ¬ klinesLen <
      max p.adxPeriod (max p.slowMaPeriod p.minKlinesForStrategy)) :
    analyzeSymbol p klinesLen currentPrice .noResult trending ranging =
        ⟨trending.1, trending.2, currentPrice, 0, some .trending⟩ ∧
      analyzeSymbol p klinesLen currentPrice .raised trending ranging =
        ⟨.NEUTRAL, 0, currentPrice, 0, none⟩ := by
  constructor <;> simp [analyzeSymbol, h]

theorem c5_indicator_failure_paths_witness :
    (¬ (200 : ℕ) < max routerParamsPy.adxPeriod
      (max routerParamsPy.slowMaPeriod routerParamsPy.minKlinesForStrategy)) ∧
      (analyzeSymbol routerParamsPy 200 5 .noResult (.LONG, 1) (.SHORT, 1) =
          ⟨.LONG, 1, 5, 0, some .trending⟩ ∧
        analyzeSymbol routerParamsPy 200 5 .raised (.LONG, 1) (.SHORT, 1) =
          ⟨.NEUTRAL, 0, 5, 0, none⟩) :=
  ⟨by decide,
    c5_indicator_failure_paths routerParamsPy 200 5 (.LONG, 1) (.SHORT, 1)
      (by decide)⟩

/-- Claim C2: in dynamic position-sizing mode (with the balance check
passed and precision rules present), writing `d` for the computed stop-loss
distance per unit: if `d = 0` or the quantity `(B × r) / d` rounds to `0`
at the instrument's quantity precision, `_open_position_logic` fails with
no order attempted and `active_positions` unchanged; otherwise, when the
exchange accepts, the order opens with exactly that rounded quantity. -/
theorem c2_dynamic_position_sizing {Sym : Type} [DecidableEq Sym]
    (cfg : RiskConfig) (rules : ExchangeRules) (symbol : Sym)
    (signal : TradeSignal) (currentPrice lastAtr : ℚ) (apiOk : Bool)
    (positions : List (Sym × OpenPosition)) (B : ℚ)
    (hdyn : cfg.useDynamicPositionSizing = true) (hB : 10 < B) :
    (slDistancePerUnit cfg currentPrice lastAtr = 0 →
        openPositionLogic cfg (some B) (some rules) symbol signal
          currentPrice lastAtr apiOk positions =
          ⟨.zeroSlDistance, positions, false⟩) ∧
      (slDistancePerUnit cfg currentPrice lastAtr ≠ 0 →
        roundQ (B * cfg.riskPerTradePercent /
            slDistancePerUnit cfg currentPrice lastAtr)
            rules.quantityPrecision = 0 →
        openPositionLogic cfg (some B) (some rules) symbol signal
          currentPrice lastAtr apiOk positions =
          ⟨.zeroQuantity, positions, false⟩) ∧
      (slDistancePerUnit cfg currentPrice lastAtr ≠ 0 →
        roundQ (B * cfg.riskPerTradePercent /
            slDistancePerUnit cfg currentPrice lastAtr)
            rules.quantityPrecision ≠ 0 →
        apiOk = true →
        ∃ slPrice tpPrice,
          (openPositionLogic cfg (some B) (some rules) symbol signal
              currentPrice lastAtr apiOk positions).outcome =
            .opened
              (roundQ (B * cfg.riskPerTradePercent /
                slDistancePerUnit cfg currentPrice lastAtr)
                rules.quantityPrecision) slPrice tpPrice) := by
  have hnB : ¬ B ≤ 10 := not_le.mpr hB
  refine ⟨fun hd => ?_, fun hd hq => ?_, fun hd hq hapi => ?_⟩
  · simp [openPositionLogic, hnB, hd]
  · simp [openPositionLogic, hnB, hd, hdyn, hq]
  · subst hapi
    refine ⟨roundQ (if signal = .LONG then
        currentPrice - slDistancePerUnit cfg currentPrice lastAtr
      else currentPrice + slDistancePerUnit cfg currentPrice lastAtr)
        rules.pricePrecision,
      roundQ (if signal = .LONG then
        currentPrice + tpDistancePerUnit cfg currentPrice lastAtr
      else currentPrice - tpDistancePerUnit cfg currentPrice lastAtr)
        rules.pricePrecision, ?_⟩
    simp [openPositionLogic, hnB, hd, hdyn, hq]

/-- Scenario of spec §8: balance 1000, risk fraction 0.02, ATR 50, SL
multiplier 2 give distance 100 and quantity 0.2. -/
theorem c2_dynamic_position_sizing_witness :
    configPy.useDynamicPositionSizing = true ∧ (10 : ℚ) < 1000 ∧
      slDistancePerUnit configPy 25000 50 ≠ 0 ∧
      roundQ (1000 * configPy.riskPerTradePercent /
        slDistancePerUnit configPy 25000 50) 1 ≠ 0 ∧
      (∃ slPrice tpPrice,
        (openPositionLogic configPy (some 1000) (some ⟨1, 2⟩) (0 : ℕ) .LONG
            25000 50 true []).outcome =
          .opened (roundQ (1000 * configPy.riskPerTradePercent /
            slDistancePerUnit configPy 25000 50) 1) slPrice tpPrice) :=
  ⟨rfl, by norm_num, by decide, by decide,
    (c2_dynamic_position_sizing configPy ⟨1, 2⟩ (0 : ℕ) .LONG 25000 50 true
      [] 1000 rfl (by norm_num)).2.2 (by decide) (by decide) rfl⟩

/-- Claim C8 (spec-modelled): the Bollinger-reversal Ranging variant
signals LONG exactly on the band-touch-and-reclaim condition (and SHORT
exactly on the mirror condition when LONG does not fire), with base
confidence 0.70 and at most 0.30 more from the RSI and reversal-bar
confirmations, provided the confidence filter threshold does not exceed the
0.70 base. -/
theorem c8_ranging_bollinger_reversal (d : RangingBarData)
    (p : RangingBBParams) (hmin : p.minSignalConfidence ≤ 7/10) :
    ((rangingBollingerAnalyze d p).1 = .LONG ↔ bbLongCondition d) ∧
      ((rangingBollingerAnalyze d p).1 = .SHORT ↔
        (¬ bbLongCondition d ∧ bbShortCondition d)) ∧
      (bbLongCondition d →
        (rangingBollingerAnalyze d p).2 =
          7/10 + (if d.rsiValue < p.rsiOversold then 3/20 else 0) +
            (if d.prevHigh < d.close then 3/20 else 0)) ∧
      (7/10 ≤ (rangingBollingerAnalyze d p).2 ∨
        (rangingBollingerAnalyze d p).2 = 0) ∧
      (rangingBollingerAnalyze d p).2 ≤ 1 := by
  by_cases hL : bbLongCondition d
  · have hc : ¬ (7:ℚ)/10 + (if d.rsiValue < p.rsiOversold then 3/20 else 0) +
        (if d.prevHigh < d.close then 3/20 else 0) < p.minSignalConfidence := by
      have h1 : (0:ℚ) ≤ (if d.rsiValue < p.rsiOversold then (3:ℚ)/20 else 0) := by
        split <;> norm_num
      have h2 : (0:ℚ) ≤ (if d.prevHigh < d.close then (3:ℚ)/20 else 0) := by
        split <;> norm_num
      push_neg
      calc p.minSignalConfidence ≤ 7/10 := hmin
        _ ≤ _ := by linarith
    have h1' : (if d.rsiValue < p.rsiOversold then (3:ℚ)/20 else 0) ≤ 3/20 := by
      split <;> norm_num
    have h2' : (if d.prevHigh < d.close then (3:ℚ)/20 else 0) ≤ 3/20 := by
      split <;> norm_num
    have h1 : (0:ℚ) ≤ (if d.rsiValue < p.rsiOversold then (3:ℚ)/20 else 0) := by
      split <;> norm_num
    have h2 : (0:ℚ) ≤ (if d.prevHigh < d.close then (3:ℚ)/20 else 0) := by
      split <;> norm_num
    have hval : rangingBollingerAnalyze d p =
        (.LONG, 7/10 + (if d.rsiValue < p.rsiOversold then 3/20 else 0) +
          (if d.prevHigh < d.close then 3/20 else 0)) := by
      simp only [rangingBollingerAnalyze, if_pos hL, if_neg hc]
    rw [hval]
    refine ⟨by simp [hL], by simp [hL], fun _ => rfl, Or.inl (by linarith),
      by linarith⟩
  · by_cases hS : bbShortCondition d
    · have hc : ¬ (7:ℚ)/10 +
          (if p.rsiOverbought < d.rsiValue then (3:ℚ)/20 else 0) +
          (if d.close < d.prevLow then (3:ℚ)/20 else 0) <
          p.minSignalConfidence := by
        have h1 : (0:ℚ) ≤
            (if p.rsiOverbought < d.rsiValue then (3:ℚ)/20 else 0) := by
          split <;> norm_num
        have h2 : (0:ℚ) ≤ (if d.close < d.prevLow then (3:ℚ)/20 else 0) := by
          split <;> norm_num
        push_neg
        calc p.minSignalConfidence ≤ 7/10 := hmin
          _ ≤ _ := by linarith
      have h1' : (if p.rsiOverbought < d.rsiValue then (3:ℚ)/20 else 0) ≤
          3/20 := by split <;> norm_num
      have h2' : (if d.close < d.prevLow then (3:ℚ)/20 else 0) ≤ 3/20 := by
        split <;> norm_num
      have h1 : (0:ℚ) ≤
          (if p.rsiOverbought < d.rsiValue then (3:ℚ)/20 else 0) := by
        split <;> norm_num
      have h2 : (0:ℚ) ≤ (if d.close < d.prevLow then (3:ℚ)/20 else 0) := by
        split <;> norm_num
      have hval : rangingBollingerAnalyze d p =
          (.SHORT, 7/10 +
            (if p.rsiOverbought < d.rsiValue then (3:ℚ)/20 else 0) +
            (if d.close < d.prevLow then (3:ℚ)/20 else 0)) := by
        simp only [rangingBollingerAnalyze, if_neg hL, if_pos hS, if_neg hc]
      rw [hval]
      refine ⟨by simp [hL], by simp [hL, hS], fun h => absurd h hL,
        Or.inl (by linarith), by linarith⟩
    · have hval : rangingBollingerAnalyze d p = (.NEUTRAL, 0) := by
        simp only [rangingBollingerAnalyze, if_neg hL, if_neg hS]
      rw [hval]
      exact ⟨by simp [hL], by simp [hL, hS], fun h => absurd h hL,
        Or.inr rfl, by norm_num⟩

theorem c8_ranging_bollinger_reversal_witness :
    (RangingBBParams.minSignalConfidence ⟨30, 70, 7/10⟩ ≤ 7/10) ∧
      ((rangingBollingerAnalyze ⟨9, 11, 21/2, 19/2, 12, 10, 12, 25⟩
          ⟨30, 70, 7/10⟩).1 = .LONG ↔
        bbLongCondition ⟨9, 11, 21/2, 19/2, 12, 10, 12, 25⟩) :=
  ⟨by norm_num,
    (c8_ranging_bollinger_reversal ⟨9, 11, 21/2, 19/2, 12, 10, 12, 25⟩
      ⟨30, 70, 7/10⟩ (by norm_num)).1⟩

/-- Characterization of the `_get_weakest_open_position` scan: the running
minimum only decreases, bounds every scanned PnL from below, and the final
pair is either the start accumulator or one of the scanned entries. -/
theorem weakestFold_spec {Sym : Type} (l : List (Sym × OpenPosition))
    (acc : Option Sym × ℚ) :
    (l.foldl weakestStep acc).2 ≤ acc.2 ∧
      (∀ kv ∈ l, (l.foldl weakestStep acc).2 ≤ kv.2.unRealizedProfit) ∧
      (l.foldl weakestStep acc = acc ∨
        ∃ kv ∈ l, (l.foldl weakestStep acc).1 = some kv.1 ∧
          (l.foldl weakestStep acc).2 = kv.2.unRealizedProfit) := by
  induction l generalizing acc with
  | nil => simp
  | cons kv t ih =>
    rcases ih (weakestStep acc kv) with ⟨ih1, ih2, ih3⟩
    have hstep2 : (weakestStep acc kv).2 ≤ acc.2 ∧
        (weakestStep acc kv).2 ≤ kv.2.unRealizedProfit := by
      unfold weakestStep
      by_cases h : kv.2.unRealizedProfit ≤ acc.2
      · rw [if_pos h]; exact ⟨h, le_refl _⟩
      · rw [if_neg h]; exact ⟨le_refl _, le_of_lt (lt_of_not_le h)⟩
    refine ⟨?_, ?_, ?_⟩
    · simpa using le_trans ih1 hstep2.1
    · intro kv' hkv'
      rcases List.mem_cons.mp hkv' with h | h
      · subst h
        simpa using le_trans ih1 hstep2.2
      · simpa using ih2 kv' h
    · rcases ih3 with heq | ⟨kv', hkv', h1, h2⟩
      · by_cases h : kv.2.unRealizedProfit ≤ acc.2
        · refine Or.inr ⟨kv, List.mem_cons_self _ _, ?_, ?_⟩
          · rw [List.foldl_cons, heq]
            unfold weakestStep
            rw [if_pos h]
          · rw [List.foldl_cons, heq]
            unfold weakestStep
            rw [if_pos h]
        · refine Or.inl ?_
          rw [List.foldl_cons, heq]
          unfold weakestStep
          rw [if_neg h]
      · exact Or.inr ⟨kv', List.mem_cons_of_mem _ hkv', by simpa using h1,
          by simpa using h2⟩

/-- When the map is nonempty, `_get_weakest_open_position` returns an entry
of the map whose PnL is minimal among all entries. -/
theorem getWeakest_spec {Sym : Type} (ps : List (Sym × OpenPosition))
    (w : Sym) (v : ℚ) (h : getWeakestOpenPosition ps = some (w, v)) :
    (∃ kv ∈ ps, kv.1 = w ∧ kv.2.unRealizedProfit = v) ∧
      ∀ kv ∈ ps, v ≤ kv.2.unRealizedProfit := by
  match ps, h with
  | (k0, p0) :: t, h =>
    rcases weakestFold_spec ((k0, p0) :: t)
      ((none : Option Sym), p0.unRealizedProfit) with ⟨_, h2, h3⟩
    simp only [getWeakestOpenPosition] at h
    rcases h3 with heq | ⟨kv', hkv', ha, hb⟩
    · rw [heq] at h
      simp at h
    · rw [ha] at h
      simp only [Option.some.injEq, Prod.mk.injEq] at h
      rcases h with ⟨hw, hv⟩
      refine ⟨⟨kv', hkv', by rw [← hw], by rw [← hv, ← hb]⟩, ?_⟩
      intro kv hkv
      rw [← hv]
      exact h2 kv hkv

/-- A nonempty map always yields a weakest entry (the first comparison
`pnl <= weakest_pnl` succeeds against itself). -/
theorem getWeakest_isSome {Sym : Type} (ps : List (Sym × OpenPosition))
    (hne : ps ≠ []) : ∃ w v, getWeakestOpenPosition ps = some (w, v) := by
  match ps, hne with
  | (k0, p0) :: t, _ =>
    simp only [getWeakestOpenPosition]
    have hstep : weakestStep ((none : Option Sym), p0.unRealizedProfit)
        (k0, p0) = (some k0, p0.unRealizedProfit) := by
      unfold weakestStep
      rw [if_pos (le_refl _)]
    rw [List.foldl_cons, hstep]
    rcases (weakestFold_spec t (some k0, p0.unRealizedProfit)).2.2 with
      heq | ⟨kv'', _, ha'', _⟩
    · rw [heq]
      exact ⟨k0, p0.unRealizedProfit, rfl⟩
    · rw [ha'']
      exact ⟨kv''.1, _, rfl⟩

/-- Inserting into the position map grows it by at most one entry. -/
theorem dinsert_length {Sym α : Type} [DecidableEq Sym] (l : List (Sym × α))
    (s : Sym) (v : α) : (dinsert l s v).length ≤ l.length + 1 := by
  unfold dinsert
  split
  · simp
  · simp

/-- Removal never grows the position map. -/
theorem dremove_length_le {Sym α : Type} [DecidableEq Sym]
    (l : List (Sym × α)) (s : Sym) : (dremove l s).length ≤ l.length :=
  List.length_filter_le _ _

/-- Removing a present key strictly shrinks the position map. -/
theorem dremove_length_lt {Sym α : Type} [DecidableEq Sym]
    (l : List (Sym × α)) (s : Sym) (h : s ∈ l.map Prod.fst) :
    (dremove l s).length < l.length := by
  induction l with
  | nil => simp at h
  | cons kv t ih =>
    simp only [List.map_cons, List.mem_cons] at h
    by_cases hk : kv.1 = s
    · have h1 : (dremove t s).length ≤ t.length := dremove_length_le t s
      have hd : (decide (kv.1 ≠ s)) = false := by simp [hk]
      unfold dremove at *
      rw [List.filter_cons, hd]
      simpa using Nat.lt_succ_of_le h1
    · rcases h with h | h
      · exact absurd h.symm hk
      · have h1 := ih h
        have hd : (decide (kv.1 ≠ s)) = true := by simpa using hk
        unfold dremove at *
        rw [List.filter_cons, hd]
        simpa using Nat.succ_lt_succ h1

/-- `_open_position_logic` adds at most one entry to the position map. -/
theorem openPositionLogic_length {Sym : Type} [DecidableEq Sym]
    (cfg : RiskConfig) (balanceFetch : Option ℚ)
    (rules? : Option ExchangeRules) (symbol : Sym) (signal : TradeSignal)
    (currentPrice lastAtr : ℚ) (apiOk : Bool)
    (ps : List (Sym × OpenPosition)) :
    (openPositionLogic cfg balanceFetch rules? symbol signal currentPrice
      lastAtr apiOk ps).positions.length ≤ ps.length + 1 := by
  unfold openPositionLogic
  repeat' first
    | split
    | simp only []
  all_goals first
    | exact Nat.le_succ _
    | exact dinsert_length _ _ _

/-- One operation (signal or detected closure) preserves the slot bound. -/
theorem applyTradeOp_le {Sym : Type} [DecidableEq Sym] (cfg : RiskConfig)
    (ps : List (Sym × OpenPosition)) (op : TradeOp Sym)
    (h : ps.length ≤ cfg.maxConcurrentPositions) :
    (applyTradeOp cfg ps op).length ≤ cfg.maxConcurrentPositions := by
  cases op with
  | closed s => exact le_trans (dremove_length_le ps s) h
  | signal symbol sig confidence currentPrice lastAtr balanceFetch rules?
      corrBlocked apiOk =>
    show (manageRiskAndOpenPosition cfg balanceFetch rules? symbol sig
      confidence currentPrice lastAtr corrBlocked apiOk ps).length ≤
      cfg.maxConcurrentPositions
    unfold manageRiskAndOpenPosition
    by_cases h1 : symbol ∈ ps.map Prod.fst
    · rw [if_pos h1]
      exact h
    · rw [if_neg h1]
      by_cases h2 : corrBlocked = true
      · rw [if_pos h2]
        exact h
      · rw [if_neg h2]
        by_cases h3 : ps.length < cfg.maxConcurrentPositions
        · rw [if_pos h3]
          exact le_trans
            (openPositionLogic_length cfg balanceFetch rules? symbol sig
              currentPrice lastAtr apiOk ps) (by omega)
        · rw [if_neg h3]
          by_cases h4 : cfg.opportunisticRebalanceEnabled = true
          · rw [if_pos h4]
            by_cases h5 : cfg.opportunisticRebalanceThreshold ≤ confidence
            · rw [if_pos h5]
              rcases hW : getWeakestOpenPosition ps with _ | ⟨w, v⟩
              · simp only [hW]
                exact h
              · simp only [hW]
                have hmem : w ∈ ps.map Prod.fst := by
                  rcases (getWeakest_spec ps w v hW).1 with ⟨kv, hkv, hk1, _⟩
                  exact List.mem_map.mpr ⟨kv, hkv, hk1⟩
                have hlt := dremove_length_lt ps w hmem
                exact le_trans
                  (openPositionLogic_length cfg balanceFetch rules? symbol sig
                    currentPrice lastAtr apiOk (dremove ps w)) (by omega)
            · rw [if_neg h5]
              exact h
          · rw [if_neg h4]
            exact h

/-- Claim C1: starting from any `active_positions` map within the slot
bound, every sequence of signals processed through
`manage_risk_and_open_position` and of detected closures keeps the number
of open positions at or below `max_concurrent_positions`; since every
prefix of a sequence is itself a sequence, the bound holds after each
operation completes. -/
theorem c1_slot_invariant {Sym : Type} [DecidableEq Sym] (cfg : RiskConfig)
    (positions : List (Sym × OpenPosition)) (ops : List (TradeOp Sym))
    (h : positions.length ≤ cfg.maxConcurrentPositions) :
    (applyTradeOps cfg positions ops).length ≤ cfg.maxConcurrentPositions := by
  induction ops generalizing positions with
  | nil => exact h
  | cons op rest ih =>
    exact ih (applyTradeOp cfg positions op) (applyTradeOp_le cfg positions op h)

theorem c1_slot_invariant_witness :
    ([] : List (ℕ × OpenPosition)).length ≤ configPy.maxConcurrentPositions ∧
      (applyTradeOps configPy ([] : List (ℕ × OpenPosition))
        [.signal 1 .LONG 1 25000 50 (some 1000) (some ⟨1, 2⟩) false true,
         .signal 2 .SHORT 1 300 4 (some 1000) (some ⟨1, 2⟩) false true,
         .signal 3 .LONG 1 10 (1/2) (some 1000) (some ⟨1, 2⟩) false true,
         .closed 2]).length ≤ configPy.maxConcurrentPositions :=
  ⟨by decide,
    c1_slot_invariant configPy []
      [.signal 1 .LONG 1 25000 50 (some 1000) (some ⟨1, 2⟩) false true,
       .signal 2 .SHORT 1 300 4 (some 1000) (some ⟨1, 2⟩) false true,
       .signal 3 .LONG 1 10 (1/2) (some 1000) (some ⟨1, 2⟩) false true,
       .closed 2] (by decide)⟩

/-- Claim C3: for a candidate that is not already held and not blocked by
the correlation guard, with rebalancing enabled: when every slot is filled
(`count = max ≥ 1`), an eviction of a position carrying the minimal
unrealized PnL followed by an attempt to open the candidate happens exactly
when `confidence ≥ OPPORTUNISTIC_REBALANCE_THRESHOLD`; below the threshold
the map is left unchanged; and whenever a slot is free the direct-open path
runs, so rebalancing never fires. -/
theorem c3_opportunistic_rebalancing {Sym : Type} [DecidableEq Sym]
    (cfg : RiskConfig) (balanceFetch : Option ℚ)
    (rules? : Option ExchangeRules) (symbol : Sym) (sig : TradeSignal)
    (confidence currentPrice lastAtr : ℚ) (apiOk : Bool)
    (ps : List (Sym × OpenPosition)) (hsym : symbol ∉ ps.map Prod.fst)
    (hreb : cfg.opportunisticRebalanceEnabled = true) :
    ((ps.length = cfg.maxConcurrentPositions ∧
        1 ≤ cfg.maxConcurrentPositions) →
      (cfg.opportunisticRebalanceThreshold ≤ confidence →
        ∃ w v, getWeakestOpenPosition ps = some (w, v) ∧
          (∃ kv ∈ ps, kv.1 = w ∧ kv.2.unRealizedProfit = v) ∧
          (∀ kv ∈ ps, v ≤ kv.2.unRealizedProfit) ∧
          manageRiskAndOpenPosition cfg balanceFetch rules? symbol sig
            confidence currentPrice lastAtr false apiOk ps =
            (openPositionLogic cfg balanceFetch rules? symbol sig
              currentPrice lastAtr apiOk (dremove ps w)).positions) ∧
      (confidence < cfg.opportunisticRebalanceThreshold →
        manageRiskAndOpenPosition cfg balanceFetch rules? symbol sig
          confidence currentPrice lastAtr false apiOk ps = ps)) ∧
    (ps.length < cfg.maxConcurrentPositions →
      manageRiskAndOpenPosition cfg balanceFetch rules? symbol sig
        confidence currentPrice lastAtr false apiOk ps =
        (openPositionLogic cfg balanceFetch rules? symbol sig currentPrice
          lastAtr apiOk ps).positions) := by
  constructor
  · rintro ⟨hlen, hmax⟩
    have hnlt : ¬ ps.length < cfg.maxConcurrentPositions := by omega
    have hne : ps ≠ [] := by
      intro hcon
      rw [hcon] at hlen
      simp at hlen
      omega
    rcases getWeakest_isSome ps hne with ⟨w, v, hW⟩
    constructor
    · intro hconf
      refine ⟨w, v, hW, (getWeakest_spec ps w v hW).1,
        (getWeakest_spec ps w v hW).2, ?_⟩
      unfold manageRiskAndOpenPosition
      rw [if_neg hsym, if_neg (by simp), if_neg hnlt, if_pos hreb,
        if_pos hconf]
      simp only [hW]
    · intro hconf
      unfold manageRiskAndOpenPosition
      rw [if_neg hsym, if_neg (by simp), if_neg hnlt, if_pos hreb,
        if_neg (not_le.mpr hconf)]
  · intro hlt
    unfold manageRiskAndOpenPosition
    rw [if_neg hsym, if_neg (by simp), if_pos hlt]

/-- Spec §8 scenario: two open positions at `max = 2`, a confidence-1.0
signal against threshold 0.95 evicts the weakest (symbol 2, PnL −3) and
opens the candidate. -/
theorem c3_opportunistic_rebalancing_witness :
    ((3 : ℕ) ∉ twoPositions.map Prod.fst) ∧
      configPy.opportunisticRebalanceEnabled = true ∧
      (twoPositions.length = configPy.maxConcurrentPositions ∧
        1 ≤ configPy.maxConcurrentPositions) ∧
      configPy.opportunisticRebalanceThreshold ≤ 1 ∧
      (∃ w v, getWeakestOpenPosition twoPositions = some (w, v) ∧
        (∃ kv ∈ twoPositions, kv.1 = w ∧ kv.2.unRealizedProfit = v) ∧
        (∀ kv ∈ twoPositions, v ≤ kv.2.unRealizedProfit) ∧
        manageRiskAndOpenPosition configPy (some 1000) (some ⟨1, 2⟩) 3 .LONG
          1 25000 50 false true twoPositions =
          (openPositionLogic configPy (some 1000) (some ⟨1, 2⟩) 3 .LONG
            25000 50 true (dremove twoPositions w)).positions) :=
  ⟨by decide, rfl, ⟨rfl, by decide⟩, by norm_num [configPy],
    ((c3_opportunistic_rebalancing configPy (some 1000) (some ⟨1, 2⟩) 3
      .LONG 1 25000 50 true twoPositions (by decide) rfl).1
      ⟨rfl, by decide⟩).1 (by norm_num [configPy])⟩

/-- Index lookup through `List.map`. -/
theorem map_getElemQ {α β : Type} (f : α → β) (l : List α) (i : ℕ) (a : α)
    (h : l[i]? = some a) : (l.map f)[i]? = some (f a) := by
  induction l generalizing i with
  | nil => simp at h
  | cons x t ih =>
    cases i with
    | zero =>
      simp only [List.getElem?_cons_zero, Option.some.injEq] at h
      simp [h]
    | succ j =>
      simp only [List.getElem?_cons_succ] at h
      simp only [List.map_cons, List.getElem?_cons_succ]
      exact ih j h

/-- Index lookup through `List.zipWith`. -/
theorem zipWith_getElemQ {α β γ : Type} (f : α → β → γ) (l₁ : List α)
    (l₂ : List β) (i : ℕ) (a : α) (b : β) (h₁ : l₁[i]? = some a)
    (h₂ : l₂[i]? = some b) : (List.zipWith f l₁ l₂)[i]? = some (f a b) := by
  induction l₁ generalizing l₂ i with
  | nil => simp at h₁
  | cons x t ih =>
    cases l₂ with
    | nil => simp at h₂
    | cons y u =>
      cases i with
      | zero =>
        simp only [List.getElem?_cons_zero, Option.some.injEq] at h₁ h₂
        simp [h₁, h₂]
      | succ j =>
        simp only [List.getElem?_cons_succ] at h₁ h₂
        simp only [List.zipWith_cons_cons, List.getElem?_cons_succ]
        exact ih u j h₁ h₂

/-- Membership in a `List.zipWith` comes from members of the two lists. -/
theorem mem_zipWithQ {α β γ : Type} {f : α → β → γ} {l₁ : List α}
    {l₂ : List β} {x : γ} (h : x ∈ List.zipWith f l₁ l₂) :
    ∃ a ∈ l₁, ∃ b ∈ l₂, x = f a b := by
  induction l₁ generalizing l₂ with
  | nil => simp at h
  | cons a t ih =>
    cases l₂ with
    | nil => simp at h
    | cons b u =>
      simp only [List.zipWith_cons_cons, List.mem_cons] at h
      rcases h with h | h
      · exact ⟨a, List.mem_cons_self _ _, b, List.mem_cons_self _ _, h⟩
      · rcases ih h with ⟨a', ha', b', hb', hx⟩
        exact ⟨a', List.mem_cons_of_mem _ ha', b',
          List.mem_cons_of_mem _ hb', hx⟩

/-- Every entry of `diff` over a finite series is NaN or finite. -/
theorem diffP_finL_cases (closes : List ℚ) (d : PFloat)
    (h : d ∈ diffP (finL closes)) : d = PFloat.nan ∨ ∃ q, d = PFloat.fin q := by
  rcases mem_zipWithQ h with ⟨a, ha, b, hb, hx⟩
  rcases List.mem_map.mp ha with ⟨qa, _, hqa⟩
  have hb' : b = PFloat.nan ∨ ∃ qb, b = PFloat.fin qb := by
    rcases List.mem_cons.mp hb with h | h
    · exact Or.inl h
    · rcases List.mem_map.mp h with ⟨qb, _, hqb⟩
      exact Or.inr ⟨qb, hqb.symm⟩
  subst hx
  rcases hb' with rfl | ⟨qb, rfl⟩
  · rw [← hqa]
    exact Or.inl rfl
  · rw [← hqa]
    exact Or.inr ⟨qa + -qb, rfl⟩

/-- The gain series of `pandas_ta.rsi` is pointwise a nonnegative finite
value (NaN comparisons are false, so NaN deltas are replaced by `0`). -/
theorem rsi_gain_entries (closes : List ℚ) (x : PFloat)
    (h : x ∈ (diffP (finL closes)).map (fun d =>
      if PFloat.blt (PFloat.fin 0) d then d else PFloat.fin 0)) :
    ∃ q, x = PFloat.fin q ∧ 0 ≤ q := by
  rcases List.mem_map.mp h with ⟨d, hd, hx⟩
  rcases diffP_finL_cases closes d hd with rfl | ⟨q, rfl⟩
  · rw [← hx]
    exact ⟨0, rfl, le_refl 0⟩
  · by_cases hq : 0 < q
    · refine ⟨q, ?_, le_of_lt hq⟩
      rw [← hx]
      simp [PFloat.blt, hq]
    · refine ⟨0, ?_, le_refl 0⟩
      rw [← hx]
      simp [PFloat.blt, hq]

/-- The loss series of `pandas_ta.rsi` is pointwise a nonnegative finite
value. -/
theorem rsi_loss_entries (closes : List ℚ) (x : PFloat)
    (h : x ∈ (diffP (finL closes)).map (fun d =>
      PFloat.neg (if PFloat.blt d (PFloat.fin 0) then d else PFloat.fin 0))) :
    ∃ q, x = PFloat.fin q ∧ 0 ≤ q := by
  rcases List.mem_map.mp h with ⟨d, hd, hx⟩
  rcases diffP_finL_cases closes d hd with rfl | ⟨q, rfl⟩
  · rw [← hx]
    exact ⟨0, by simp [PFloat.blt, PFloat.neg], le_refl 0⟩
  · by_cases hq : q < 0
    · refine ⟨-q, ?_, by linarith⟩
      rw [← hx]
      simp [PFloat.blt, hq, PFloat.neg]
    · refine ⟨0, ?_, le_refl 0⟩
      rw [← hx]
      simp [PFloat.blt, hq, PFloat.neg]

/-- Summing a window of nonnegative finite values succeeds and the sum is
nonnegative. -/
theorem finSum_nonneg (w : List PFloat)
    (h : ∀ x ∈ w, ∃ q, x = PFloat.fin q ∧ 0 ≤ q) :
    ∃ s, finSum w = some s ∧ 0 ≤ s := by
  induction w with
  | nil => exact ⟨0, rfl, le_refl 0⟩
  | cons x t ih =>
    rcases h x (List.mem_cons_self _ _) with ⟨q, rfl, hq⟩
    rcases ih (fun y hy => h y (List.mem_cons_of_mem _ hy)) with ⟨s, hs, hs0⟩
    refine ⟨q + s, ?_, by linarith⟩
    simp [finSum, hs]

/-- A rolling mean of nonnegative finite values is pointwise NaN (warm-up)
or a nonnegative finite value. -/
theorem rollingMean_entries (n : ℕ) (l : List PFloat)
    (h : ∀ x ∈ l, ∃ q, x = PFloat.fin q ∧ 0 ≤ q) (y : PFloat)
    (hy : y ∈ rollingMean n l) :
    y = PFloat.nan ∨ ∃ q, y = PFloat.fin q ∧ 0 ≤ q := by
  rcases List.mem_map.mp hy with ⟨i, _, hbody⟩
  by_cases hn : n = 0 ∨ i + 1 < n
  · rw [← hbody]
    simp [hn]
  · have hw : ∀ x ∈ (l.take (i + 1)).drop (i + 1 - n), ∃ q,
        x = PFloat.fin q ∧ 0 ≤ q := fun x hx =>
      h x (List.mem_of_mem_take (List.mem_of_mem_drop hx))
    rcases finSum_nonneg _ hw with ⟨s, hs, hs0⟩
    right
    refine ⟨s / n, ?_, ?_⟩
    · rw [← hbody]
      simp [hn, hs]
    · positivity

/-- The post-`fillna` RSI expression `100 - 100/(1 + gain/loss)` evaluated
at any NaN-or-nonnegative gain and loss is a finite value in [0, 100]. -/
theorem rsi_value_cases (g l : PFloat)
    (hg : g = PFloat.nan ∨ ∃ a, g = PFloat.fin a ∧ 0 ≤ a)
    (hl : l = PFloat.nan ∨ ∃ b, l = PFloat.fin b ∧ 0 ≤ b) :
    ∃ q, PFloat.fillna 50
        (PFloat.sub (PFloat.fin 100)
          (PFloat.div (PFloat.fin 100)
            (PFloat.add (PFloat.fin 1) (PFloat.div g l)))) =
        PFloat.fin q ∧ 0 ≤ q ∧ q ≤ 100 := by
  rcases hg with rfl | ⟨a, rfl, ha⟩
  · refine ⟨50, ?_, by norm_num, by norm_num⟩
    cases l <;> rfl
  · rcases hl with rfl | ⟨b, rfl, hb⟩
    · exact ⟨50, rfl, by norm_num, by norm_num⟩
    · by_cases hb0 : b = 0
      · subst hb0
        by_cases ha0 : 0 < a
        · have hdiv : PFloat.div (PFloat.fin a) (PFloat.fin 0) =
              PFloat.pinf := by simp [PFloat.div, ha0]
          rw [hdiv]
          refine ⟨100, ?_, by norm_num, by norm_num⟩
          simp [PFloat.add, PFloat.div, PFloat.sub, PFloat.neg, PFloat.fillna]
        · have ha0' : a = 0 := le_antisymm (not_lt.mp ha0) ha
          subst ha0'
          have hdiv : PFloat.div (PFloat.fin 0) (PFloat.fin 0) =
              PFloat.nan := by simp [PFloat.div]
          rw [hdiv]
          exact ⟨50, rfl, by norm_num, by norm_num⟩
      · have hbpos : 0 < b := lt_of_le_of_ne hb (Ne.symm hb0)
        have hdiv : PFloat.div (PFloat.fin a) (PFloat.fin b) =
            PFloat.fin (a / b) := by simp [PFloat.div, hb0]
        rw [hdiv]
        have hr : 0 ≤ a / b := by positivity
        have hne : ¬ (1 + a / b = 0) := by linarith
        refine ⟨100 + -(100 / (1 + a / b)), ?_, ?_, ?_⟩
        · simp [PFloat.add, PFloat.div, PFloat.sub, PFloat.neg,
            PFloat.fillna, hne]
        · have h1 : 100 / (1 + a / b) ≤ 100 := by
            apply div_le_self (by norm_num)
            linarith
          linarith
        · have h2 : 0 ≤ 100 / (1 + a / b) := by positivity
          linarith

/-- Claim C6 as amended: every RSI value produced by `pandas_ta.rsi` is a
finite value in [0, 100]; at a bar where the rolling average loss is
exactly 0, the RSI is exactly 100 when the rolling average gain is
positive, but exactly 50 (the `fillna` constant applied to the NaN from
`0/0`) when the average gain is also 0 — not 100 unconditionally. -/
theorem c6_rsi_bounds (closes : List ℚ) (length : ℕ) :
    (∀ y ∈ rsi closes length, ∃ q, y = PFloat.fin q ∧ 0 ≤ q ∧ q ≤ 100) ∧
      (∀ (i : ℕ) (g : ℚ),
        (avgLoss closes length)[i]? = some (PFloat.fin 0) →
        (avgGain closes length)[i]? = some (PFloat.fin g) →
        (0 < g → (rsi closes length)[i]? = some (PFloat.fin 100)) ∧
          (g = 0 → (rsi closes length)[i]? = some (PFloat.fin 50))) := by
  constructor
  · intro y hy
    rcases List.mem_map.mp hy with ⟨rs, hrs, hval⟩
    rcases mem_zipWithQ hrs with ⟨g, hgmem, l, hlmem, hrsval⟩
    have hgc := rollingMean_entries length _ (rsi_gain_entries closes) g hgmem
    have hlc := rollingMean_entries length _ (rsi_loss_entries closes) l hlmem
    rcases rsi_value_cases g l hgc hlc with ⟨q, hq, hq0, hq100⟩
    refine ⟨q, ?_, hq0, hq100⟩
    rw [← hval, hrsval]
    exact hq
  · intro i g hloss hgain
    have hz := zipWith_getElemQ PFloat.div _ _ i _ _ hgain hloss
    have hr := map_getElemQ
      (fun rs => PFloat.fillna 50
        (PFloat.sub (PFloat.fin 100)
          (PFloat.div (PFloat.fin 100) (PFloat.add (PFloat.fin 1) rs))))
      _ i _ hz
    constructor
    · intro hgpos
      have hdiv : PFloat.div (PFloat.fin g) (PFloat.fin 0) = PFloat.pinf := by
        simp [PFloat.div, hgpos]
      rw [hdiv] at hr
      simp only [rsi]
      simpa [PFloat.add, PFloat.div, PFloat.sub, PFloat.neg, PFloat.fillna]
        using hr
    · intro hg0
      subst hg0
      have hdiv : PFloat.div (PFloat.fin 0) (PFloat.fin 0) = PFloat.nan := by
        simp [PFloat.div]
      rw [hdiv] at hr
      simp only [rsi]
      simpa [PFloat.add, PFloat.div, PFloat.sub, PFloat.neg, PFloat.fillna]
        using hr

/-- Counterexample to claim C6 as stated: on the flat price series
`[1, 1, 1]` with window 2, the rolling average loss at the last bar is
exactly 0, yet the RSI there is 50 (the `fillna` of the `0/0` NaN), not
100. -/
theorem c6_counterexample :
    (avgLoss [1, 1, 1] 2)[2]? = some (PFloat.fin 0) ∧
      (rsi [1, 1, 1] 2)[2]? = some (PFloat.fin 50) ∧
      ¬ (rsi [1, 1, 1] 2)[2]? = some (PFloat.fin 100) := by
  decide

/-- On the strictly rising series `[1, 2, 4, 8]` the last-bar average loss
is 0, the average gain is 3 > 0, and the RSI is exactly 100. -/
theorem c6_rsi_bounds_witness :
    (avgLoss [1, 2, 4, 8] 2)[3]? = some (PFloat.fin 0) ∧
      (avgGain [1, 2, 4, 8] 2)[3]? = some (PFloat.fin 3) ∧
      (0 : ℚ) < 3 ∧ (rsi [1, 2, 4, 8] 2)[3]? = some (PFloat.fin 100) :=
  ⟨by decide, by decide, by norm_num,
    ((c6_rsi_bounds [1, 2, 4, 8] 2).2 3 3 (by decide) (by decide)).1
      (by norm_num)⟩

/-- Claim C7 as amended: the DX division of `pandas_ta.adx` is NOT guarded
against a zero DI sum — at every bar where both smoothed directional
indicators are 0 (a flat DI sum), the DX value is the NaN produced by
`0 / 0`, not 0. -/
theorem c7_dx_nan_on_zero_di_sum (high low close : List ℚ) (length : ℕ)
    (i : ℕ) (hp : (diPlus high low close length)[i]? = some (PFloat.fin 0))
    (hm : (diMinus high low close length)[i]? = some (PFloat.fin 0)) :
    (dxLine high low close length)[i]? = some PFloat.nan := by
  have hz := zipWith_getElemQ
    (fun p m => PFloat.mul (PFloat.fin 100)
      (PFloat.absP (PFloat.div (PFloat.sub p m) (PFloat.add p m))))
    _ _ i _ _ hp hm
  have hval : PFloat.mul (PFloat.fin 100)
      (PFloat.absP (PFloat.div (PFloat.sub (PFloat.fin 0) (PFloat.fin 0))
        (PFloat.add (PFloat.fin 0) (PFloat.fin 0)))) = PFloat.nan := by
    decide
  simp only [dxLine]
  simpa [hval] using hz

theorem c7_dx_nan_on_zero_di_sum_witness :
    (diPlus [10, 9] [0, 1] [5, 5] 2)[1]? = some (PFloat.fin 0) ∧
      (diMinus [10, 9] [0, 1] [5, 5] 2)[1]? = some (PFloat.fin 0) ∧
      (dxLine [10, 9] [0, 1] [5, 5] 2)[1]? = some PFloat.nan :=
  ⟨by decide, by decide,
    c7_dx_nan_on_zero_di_sum [10, 9] [0, 1] [5, 5] 2 1 (by decide)
      (by decide)⟩

/-- Counterexample to claim C7 as stated: the two-bar OHLC series with
highs `[10, 9]`, lows `[0, 1]`, closes `[5, 5]` (an inside bar, so both
directional movements are 0 while the ATR is positive) has `+DI = -DI = 0`
at bar 1; the DX there is NaN, not 0, and the smoothed ADX is NaN as well —
hence not a value inside [0, 100]. -/
theorem c7_counterexample :
    (diPlus [10, 9] [0, 1] [5, 5] 2)[1]? = some (PFloat.fin 0) ∧
      (diMinus [10, 9] [0, 1] [5, 5] 2)[1]? = some (PFloat.fin 0) ∧
      PFloat.add (PFloat.fin 0) (PFloat.fin 0) = PFloat.fin 0 ∧
      (dxLine [10, 9] [0, 1] [5, 5] 2)[1]? = some PFloat.nan ∧
      ¬ (dxLine [10, 9] [0, 1] [5, 5] 2)[1]? = some (PFloat.fin 0) ∧
      (adxLine [10, 9] [0, 1] [5, 5] 2)[1]? = some PFloat.nan ∧
      ¬ ∃ q : ℚ, (adxLine [10, 9] [0, 1] [5, 5] 2)[1]? =
        some (PFloat.fin q) ∧ 0 ≤ q ∧ q ≤ 100 := by
  refine ⟨by decide, by decide, by decide, by decide, by decide, by decide,
    ?_⟩
  rintro ⟨q, hq, -⟩
  have hnan : (adxLine [10, 9] [0, 1] [5, 5] 2)[1]? = some PFloat.nan := by
    decide
  rw [hnan] at hq
  simp at hq

/-- Looking up the key just inserted. -/
theorem alookup_dinsert_self {Sym α : Type} [DecidableEq Sym]
    (l : List (Sym × α)) (s : Sym) (v : α) :
    alookup (dinsert l s v) s = some v := by
  unfold dinsert
  by_cases hmem : s ∈ l.map Prod.fst
  · rw [if_pos hmem]
    induction l with
    | nil => simp at hmem
    | cons kv t ih =>
      simp only [List.map_cons, List.mem_cons] at hmem
      by_cases hk : kv.1 = s
      · simp only [List.map_cons, hk, if_pos]
        simp [alookup]
      · have hmem' : s ∈ t.map Prod.fst := by
          rcases hmem with h | h
          · exact absurd h.symm hk
          · exact h
        simp only [List.map_cons, if_neg hk]
        simp only [alookup, hk, if_false]
        exact ih hmem'
  · rw [if_neg hmem]
    induction l with
    | nil => simp [alookup]
    | cons kv t ih =>
      simp only [List.map_cons, List.mem_cons] at hmem
      push_neg at hmem
      have hk : ¬ kv.1 = s := fun h => hmem.1 h.symm
      simp only [List.cons_append, alookup, hk, if_false]
      exact ih hmem.2

/-- Insertion at one key leaves lookups of other keys unchanged. -/
theorem alookup_dinsert_ne {Sym α : Type} [DecidableEq Sym]
    (l : List (Sym × α)) (skey squery : Sym) (v : α) (h : squery ≠ skey) :
    alookup (dinsert l skey v) squery = alookup l squery := by
  unfold dinsert
  by_cases hmem : skey ∈ l.map Prod.fst
  · rw [if_pos hmem]
    clear hmem
    induction l with
    | nil => rfl
    | cons kv t ih =>
      by_cases hk : kv.1 = skey
      · have hq : ¬ skey = squery := fun hc => h hc.symm
        have hq' : ¬ kv.1 = squery := by rw [hk]; exact hq
        simp only [List.map_cons, if_pos hk]
        simp only [alookup, hq, hq', if_false]
        exact ih
      · simp only [List.map_cons, if_neg hk]
        by_cases hq : kv.1 = squery
        · simp [alookup, hq]
        · simp only [alookup, hq, if_false]
          exact ih
  · rw [if_neg hmem]
    clear hmem
    induction l with
    | nil =>
      have hq : ¬ skey = squery := fun hc => h hc.symm
      simp [alookup, hq]
    | cons kv t ih =>
      by_cases hq : kv.1 = squery
      · simp [alookup, hq]
      · simp only [List.cons_append, alookup, hq, if_false]
        exact ih

/-- A resolver call for one symbol never disturbs the cached entry of
another symbol. -/
theorem getCachedParams_cache_ne {Sym Key : Type} [DecidableEq Sym]
    (db : Sym → Option (ParamMap Key)) (t : ℚ) (sym s : Sym)
    (cache : ParamsCache Sym Key) (h : sym ≠ s) :
    alookup (getCachedParams db t sym cache).2.1 s = alookup cache s := by
  unfold getCachedParams
  have hfetch : ∀ u : ParamMap Key × ParamsCache Sym Key × Bool,
      u = (match db sym with
        | some paramsFromDb =>
          if paramsFromDb.isEmpty then ([], cache, true)
          else (paramsFromDb, dinsert cache sym (paramsFromDb, t), true)
        | none => ([], cache, true)) → alookup u.2.1 s = alookup cache s := by
    intro u hu
    cases hdb : db sym with
    | some pd =>
      rw [hdb] at hu
      dsimp only at hu
      by_cases hem : pd.isEmpty
      · rw [if_pos hem] at hu
        rw [hu]
      · rw [if_neg hem] at hu
        rw [hu]
        exact alookup_dinsert_ne cache sym s (pd, t) (fun hc => h hc.symm)
    | none =>
      rw [hdb] at hu
      dsimp only at hu
      rw [hu]
  cases halook : alookup cache sym with
  | some pt =>
    rcases pt with ⟨params, ts⟩
    dsimp only
    split
    · rfl
    · exact hfetch _ rfl
  | none =>
    dsimp only
    exact hfetch _ rfl

/-- Invariant of the resolver-call trace for a symbol whose persisted
parameters are present and non-empty: fetches for it are separated by at
least the TTL, and a cached timestamp bounds all later fetch times by TTL. -/
theorem fetchTimes_separated_aux {Sym Key : Type} [DecidableEq Sym]
    (db : Sym → Option (ParamMap Key)) (s : Sym) (p : ParamMap Key)
    (hdb : db s = some p) (hp : p.isEmpty = false) (calls : List (ℚ × Sym)) :
    ∀ cache : ParamsCache Sym Key,
      List.Chain' (fun a b => a + paramsCacheTtlSeconds ≤ b)
        (fetchTimesFor db s cache calls) ∧
      (∀ q ts, alookup cache s = some (q, ts) →
        ∀ t ∈ fetchTimesFor db s cache calls,
          ts + paramsCacheTtlSeconds ≤ t) := by
  have h300 : (0 : ℚ) ≤ paramsCacheTtlSeconds := by
    norm_num [paramsCacheTtlSeconds]
  induction calls with
  | nil =>
    intro cache
    constructor
    · simp [fetchTimesFor]
    · intro q ts _ t ht
      simp [fetchTimesFor] at ht
  | cons c rest ih =>
    rcases c with ⟨t0, sym⟩
    intro cache
    by_cases hsym : sym = s
    · subst hsym
      cases halook : alookup cache sym with
      | some pt =>
        rcases pt with ⟨params, ts0⟩
        by_cases hts : t0 - ts0 < paramsCacheTtlSeconds
        · have hr : getCachedParams db t0 sym cache =
              (params, cache, false) := by
            unfold getCachedParams
            rw [halook]
            dsimp only
            rw [if_pos hts]
          simp only [fetchTimesFor, hr]
          rw [if_neg (by simp)]
          simp only [List.nil_append]
          refine ⟨(ih cache).1, fun q ts h t ht => (ih cache).2 q ts ?_ t ht⟩
          rw [halook]
          exact h
        · have hr : getCachedParams db t0 sym cache =
              (p, dinsert cache sym (p, t0), true) := by
            unfold getCachedParams
            rw [halook]
            dsimp only
            rw [if_neg hts, hdb]
            dsimp only
            rw [if_neg (by simp [hp])]
          simp only [fetchTimesFor, hr]
          rw [if_pos (by exact ⟨trivial, trivial⟩)]
          rcases ih (dinsert cache sym (p, t0)) with ⟨ih1, ih2⟩
          have hbound : ∀ t ∈ fetchTimesFor db sym
              (dinsert cache sym (p, t0)) rest,
              t0 + paramsCacheTtlSeconds ≤ t :=
            ih2 p t0 (alookup_dinsert_self cache sym (p, t0))
          have hts' : ts0 + paramsCacheTtlSeconds ≤ t0 := by
            have := not_lt.mp hts
            linarith
          constructor
          · refine List.chain'_cons'.mpr ⟨?_, ih1⟩
            intro y hy
            exact hbound y (List.mem_of_mem_head? hy)
          · intro q ts h t ht
            have h' : alookup cache sym = some (q, ts) := by
              rw [halook]
              exact h
            rw [halook] at h'
            injection h' with h''
            injection h'' with hq hts2
            rcases List.mem_cons.mp ht with rfl | ht'
            · rw [← hts2]
              exact hts'
            · have := hbound t ht'
              rw [← hts2]
              linarith
      | none =>
        have hr : getCachedParams db t0 sym cache =
            (p, dinsert cache sym (p, t0), true) := by
          unfold getCachedParams
          rw [halook]
          dsimp only
          rw [hdb]
          dsimp only
          rw [if_neg (by simp [hp])]
        simp only [fetchTimesFor, hr]
        rw [if_pos (by exact ⟨trivial, trivial⟩)]
        rcases ih (dinsert cache sym (p, t0)) with ⟨ih1, ih2⟩
        have hbound : ∀ t ∈ fetchTimesFor db sym
            (dinsert cache sym (p, t0)) rest,
            t0 + paramsCacheTtlSeconds ≤ t :=
          ih2 p t0 (alookup_dinsert_self cache sym (p, t0))
        constructor
        · refine List.chain'_cons'.mpr ⟨?_, ih1⟩
          intro y hy
          exact hbound y (List.mem_of_mem_head? hy)
        · intro q ts h
          exact Option.noConfusion h
    · have hcachene : alookup (getCachedParams db t0 sym cache).2.1 s =
          alookup cache s := getCachedParams_cache_ne db t0 sym s cache hsym
      simp only [fetchTimesFor]
      rw [if_neg (fun hc => hsym hc.2)]
      simp only [List.nil_append]
      rcases ih ((getCachedParams db t0 sym cache).2.1) with ⟨ih1, ih2⟩
      refine ⟨ih1, fun q ts h => ih2 q ts ?_⟩
      rw [hcachene]
      exact h

/-- Claim C9 as amended: for a symbol whose persisted parameter map is
present and non-empty, any two consecutive persistence fetches issued by
`_get_cached_params` on behalf of that symbol — starting from an empty
cache, over any sequence of resolver calls without caller override — are at
least one TTL (300 seconds) apart, hence at most one fetch per TTL window.
When the store holds nothing for the symbol the result is deliberately not
cached and every resolver call fetches (see the counterexample). -/
theorem c9_cache_fetch_separation {Sym Key : Type} [DecidableEq Sym]
    (db : Sym → Option (ParamMap Key)) (s : Sym) (p : ParamMap Key)
    (hdb : db s = some p) (hp : p.isEmpty = false) (calls : List (ℚ × Sym)) :
    List.Chain' (fun a b => a + paramsCacheTtlSeconds ≤ b)
      (fetchTimesFor db s [] calls) :=
  (fetchTimes_separated_aux db s p hdb hp calls []).1

/-- Three resolver calls at 0 s, 100 s and 400 s for a symbol with stored
parameters fetch exactly at 0 s and 400 s, which are a full TTL apart. -/
theorem c9_cache_fetch_separation_witness :
    (fun n : ℕ => if n = 1 then some [((0 : ℕ), (5 : ℚ))] else none) 1 =
        some [((0 : ℕ), (5 : ℚ))] ∧
      ([((0 : ℕ), (5 : ℚ))] : ParamMap ℕ).isEmpty = false ∧
      fetchTimesFor
        (fun n : ℕ => if n = 1 then some [((0 : ℕ), (5 : ℚ))] else none) 1 []
        [(0, 1), (100, 1), (400, 1)] = [0, 400] ∧
      List.Chain' (fun a b => a + paramsCacheTtlSeconds ≤ b)
        (fetchTimesFor
          (fun n : ℕ => if n = 1 then some [((0 : ℕ), (5 : ℚ))] else none) 1
          [] [(0, 1), (100, 1), (400, 1)]) :=
  ⟨by decide, by decide, by decide,
    c9_cache_fetch_separation
      (fun n : ℕ => if n = 1 then some [((0 : ℕ), (5 : ℚ))] else none) 1
      [((0 : ℕ), (5 : ℚ))] (by decide) (by decide)
      [(0, 1), (100, 1), (400, 1)]⟩

/-- Counterexample to claim C9 as stated: for a symbol with no persisted
parameters (the default situation — `get_strategy_params` returns `None`
and the resolver deliberately does not cache the fallback), two resolver
calls one second apart each hit the persistence layer: two fetches inside
one 300-second TTL window. -/
theorem c9_counterexample :
    fetchTimesFor (fun _ : ℕ => (none : Option (ParamMap ℕ))) 1 []
        [(0, 1), (1, 1)] = [0, 1] ∧
      (1 : ℚ) - 0 < paramsCacheTtlSeconds ∧
      ¬ (0 + paramsCacheTtlSeconds ≤ (1 : ℚ)) := by
  refine ⟨by decide, ?_, ?_⟩
  · norm_num [paramsCacheTtlSeconds]
  · norm_num [paramsCacheTtlSeconds]
